import Mathlib

/-!
Verification of the `def_modular!` modular-arithmetic generator
(src/src/def_macro.rs) against its natural-language specification.

The generated type stores a representative of the residue class as an
unsigned integer; we embed representatives as `Nat` and signed inputs as
`Int`, parametrizing every operation by the modulus `M` (the macro's
`$mod`).  Rust's `%` on signed integers truncates toward zero, which is
`Int.tmod` in Lean; on unsigned integers it is `Nat.mod`.  Functions that
can panic in Rust (`assert!`, `expect`) are embedded as `Except Unit`
values, `Except.error ()` marking the panic.
-/

namespace GenericModular

/-- Modelled from the spec: the crate-root primality test `is_prime` is not
under src/ (the macro only calls `$crate::is_prime`).  Spec §4.1: trial
division, deterministic and correct for every value in the supported range. -/
def is_prime (m : Nat) : Bool :=
  decide (2 ≤ m) && (List.range (m - 2)).all fun i => m % (i + 2) != 0

/-- Modelled from the spec: the crate-root `list_prime_factors` is not under
src/.  Spec §4.1: the ordered sequence of distinct prime divisors of `m`. -/
def list_prime_factors (m : Nat) : List Nat :=
  (List.range (m + 1)).filter fun p => is_prime p && m % p == 0

/-- Modelled from the spec: the crate-root `extended_gcd` is not under src/.
Core recursion of the extended Euclidean algorithm on `(a, b)`, producing
Bézout coefficients `(x, y)` and the gcd `g` with `a*x + b*y = g`
(spec §4.4 strategy 2 and glossary).  The first argument is fuel making the
`(a, b) ↦ (b, a % b)` descent structurally recursive; fuel `b + 1` always
suffices because the second argument strictly decreases. -/
def egcdFuel : Nat → Nat → Nat → Int × Int × Nat
  | _, a, 0 => (1, 0, a)
  | 0, a, _ => (1, 0, a)
  | fuel + 1, a, b =>
    let p := egcdFuel fuel b (a % b)
    (p.2.1, p.1 - ((a / b : Nat) : Int) * p.2.1, p.2.2)

/-- Modelled from the spec: extended Euclidean algorithm on `(a, b)` with
adequate fuel. -/
def egcd (a b : Nat) : Int × Int × Nat := egcdFuel (b + 1) a b

/-- Modelled from the spec: `extended_gcd(a, M)` as used by `coprime_inv`
(src/src/def_macro.rs line 108): the Bézout coefficient for `a` is returned
reduced into `[0, M)` (spec §4.4 strategy 2: "returning the Bézout
coefficient for `a` reduced into [0, M)"), together with the second Bézout
coefficient and the gcd. -/
def extended_gcd (a m : Nat) : Nat × Int × Nat :=
  (((egcd a m).1 % (m : Int)).toNat, (egcd a m).2.1, (egcd a m).2.2)

/-- Embedding of `overflow_check` (src/src/def_macro.rs lines 49–54), the
compile-time gate, parametrized by the maximum values of the unsigned and
signed widths.  All four comparisons are carried out in `u128`, which cannot
overflow for the admissible inputs, so plain `Nat` arithmetic is faithful. -/
def overflow_check (uintMax sintMax M : Nat) : Bool :=
  decide (M ≤ uintMax) && decide (M + M ≤ sintMax) &&
    decide (M ≤ 2 ^ 64 - 1) && decide (M * M < uintMax)

/-- Embedding of the `const fn new` constructor (src/src/def_macro.rs lines
75–80): `int %= M; int += M; int %= M` on the signed type, then cast to the
unsigned type.  Rust's signed `%` truncates toward zero, i.e. `Int.tmod`. -/
def new (M : Nat) (x : Int) : Nat :=
  ((x.tmod (M : Int) + (M : Int)).tmod (M : Int)).toNat

/-- Embedding of the unsigned `From` conversion (src/src/def_macro.rs lines
144–148): `Self(int % $mod)`. -/
def from_uint (M x : Nat) : Nat := x % M

/-- Embedding of the `Add` operator (src/src/def_macro.rs lines 154–158):
`Self((self.0 + rhs.0) % $mod)`. -/
def add (M a b : Nat) : Nat := (a + b) % M

/-- Embedding of the `Sub` operator (src/src/def_macro.rs lines 160–167):
`Self(((self.0 + $mod) - rhs.0) % $mod)`.  For representatives `b < M` the
Rust subtraction cannot underflow, so `Nat` subtraction is faithful there. -/
def sub (M a b : Nat) : Nat := ((a + M) - b) % M

/-- Embedding of the `Mul` operator (src/src/def_macro.rs lines 169–173):
`Self((self.0 * rhs.0) % $mod)`. -/
def mul (M a b : Nat) : Nat := (a * b) % M

/-- Embedding of `pow` (src/src/def_macro.rs lines 88–99) with a fuel
argument making the `n / 2` descent structurally recursive; since
`(n + 1) / 2 ≤ n`, fuel `n` always suffices for exponent `n` and the
fuel-exhausted branch is unreachable from `pow`.  Note the source tests
`n % 1 == 1` (never true), faithfully reproduced here. -/
def powGo (M a : Nat) : Nat → Nat → Nat
  | _, 0 => 1
  | 0, _ + 1 => 1
  | fuel + 1, n + 1 =>
    let root := powGo M a fuel ((n + 1) / 2)
    let result := mul M root root
    if (n + 1) % 1 = 1 then mul M result a else result

/-- Embedding of `pow` (src/src/def_macro.rs lines 88–99). -/
def pow (M a n : Nat) : Nat := powGo M a n n

/-- Number of recursive calls performed by `pow` on exponent `n`, following
exactly the recursion structure of `pow` (src/src/def_macro.rs lines 88–99):
zero at `n = 0`, one plus the depth at `n / 2` otherwise. -/
def pow_depthGo : Nat → Nat → Nat
  | _, 0 => 0
  | 0, _ + 1 => 0
  | fuel + 1, n + 1 => pow_depthGo fuel ((n + 1) / 2) + 1

/-- Recursion depth of `pow` on exponent `n`. -/
def pow_depth (n : Nat) : Nat := pow_depthGo n n

/-- Embedding of `prime_inv` (src/src/def_macro.rs lines 101–104):
`assert!(*IS_MOD_PRIME); self.pow($mod - 2)`.  The failed assertion (a Rust
panic) is `Except.error ()`. -/
def prime_inv (M a : Nat) : Except Unit Nat :=
  if is_prime M then Except.ok (pow M a (M - 2)) else Except.error ()

/-- Embedding of `coprime_inv` (src/src/def_macro.rs lines 106–114):
`assert!` that no cached prime factor of `M` divides the representative,
then `extended_gcd(self.0, $mod)`, returning `Some(Self(x))` when the gcd
is 1 and `None` otherwise. -/
def coprime_inv (M a : Nat) : Except Unit (Option Nat) :=
  if (list_prime_factors M).all (fun f => a % f != 0) then
    if (extended_gcd a M).2.2 = 1 then Except.ok (some (extended_gcd a M).1)
    else Except.ok none
  else Except.error ()

/-- Embedding of `brute_force_inv` (src/src/def_macro.rs lines 116–123):
scan `i` over `1..M` and return the first `i` with `self * Self(i) ==
Self(1)`. -/
def brute_force_inv (M a : Nat) : Option Nat :=
  (List.range' 1 (M - 1)).find? fun i => mul M a i == 1

/-- Embedding of `inv` (src/src/def_macro.rs lines 125–133): dispatch to the
prime, coprime, or brute-force strategy in priority order. -/
def inv (M a : Nat) : Except Unit (Option Nat) :=
  if is_prime M then (prime_inv M a).map some
  else if (list_prime_factors M).all (fun f => a % f != 0) then coprime_inv M a
  else Except.ok (brute_force_inv M a)

/-- Embedding of the `Div` operator (src/src/def_macro.rs lines 179–186):
`self * rhs.inv().expect(..)`; the `expect` on `None` is a Rust panic,
embedded as `Except.error ()`. -/
def div (M a b : Nat) : Except Unit Nat :=
  match inv M b with
  | Except.error e => Except.error e
  | Except.ok none => Except.error ()
  | Except.ok (some c) => Except.ok (mul M a c)

/-! ## Helper lemmas -/

lemma sq_ne_two_pow_sub_one {w : Nat} (hw : 2 ≤ w) (M : Nat) : M * M ≠ 2 ^ w - 1 := by
  intro h
  have h4 : 2 ^ w = 4 * 2 ^ (w - 2) := by
    calc 2 ^ w = 2 ^ ((w - 2) + 2) := by rw [Nat.sub_add_cancel hw]
      _ = 2 ^ (w - 2) * 2 ^ 2 := pow_add 2 (w - 2) 2
      _ = 4 * 2 ^ (w - 2) := by ring
  have hpos : 0 < 2 ^ (w - 2) := Nat.pos_pow_of_pos _ (by norm_num)
  rcases Nat.even_or_odd M with ⟨k, hk⟩ | ⟨k, hk⟩
  · subst hk
    have hkk : (k + k) * (k + k) = 4 * (k * k) := by ring
    rw [hkk, h4] at h
    omega
  · subst hk
    have hkk : (2 * k + 1) * (2 * k + 1) = 4 * (k * k + k) + 1 := by ring
    rw [hkk, h4] at h
    omega

lemma pow_depthGo_le_log2 : ∀ fuel n, pow_depthGo fuel n ≤ Nat.log2 n + 1 := by
  intro fuel
  induction fuel with
  | zero => intro n; cases n <;> simp [pow_depthGo]
  | succ fuel ih =>
    intro n
    match n with
    | 0 => simp [pow_depthGo]
    | 1 =>
      have h1 : pow_depthGo (fuel + 1) 1 = pow_depthGo fuel 0 + 1 := rfl
      simp [h1, pow_depthGo]
    | n + 2 =>
      have hunf : pow_depthGo (fuel + 1) (n + 2) = pow_depthGo fuel ((n + 2) / 2) + 1 := rfl
      have hlog : Nat.log2 (n + 2) = Nat.log2 ((n + 2) / 2) + 1 := by
        conv_lhs => unfold Nat.log2
        rw [if_pos (by omega : n + 2 ≥ 2)]
      rw [hunf, hlog]
      have := ih ((n + 2) / 2)
      omega

lemma neg_tmod_eq (x m : Int) : (-x).tmod m = -(x.tmod m) := by
  rw [Int.tmod_def, Int.tmod_def, Int.neg_tdiv]
  ring

lemma new_eq_emod {M : Nat} (hM : 0 < M) (x : Int) :
    new M x = (x % (M : Int)).toNat := by
  have hMI : (0 : Int) < (M : Int) := by exact_mod_cast hM
  have hlt : x.tmod (M : Int) < (M : Int) := Int.tmod_lt_of_pos x hMI
  have hgt : -(M : Int) < x.tmod (M : Int) := by
    have h2 : (-x).tmod (M : Int) < (M : Int) := Int.tmod_lt_of_pos (-x) hMI
    rw [neg_tmod_eq] at h2
    omega
  have hnn : 0 ≤ x.tmod (M : Int) + (M : Int) := by omega
  unfold new
  rw [Int.tmod_eq_emod hnn (le_of_lt hMI), Int.add_emod_self]
  congr 1
  conv_rhs => rw [← Int.tmod_add_tdiv x (M : Int)]
  rw [Int.add_mul_emod_self_left]

lemma is_prime_iff (m : Nat) : is_prime m = true ↔ Nat.Prime m := by
  rw [Nat.prime_def_lt']
  unfold is_prime
  simp only [Bool.and_eq_true, decide_eq_true_eq, List.all_eq_true, List.mem_range,
    bne_iff_ne, ne_eq]
  constructor
  · rintro ⟨h2, hall⟩
    refine ⟨h2, fun d hd2 hdm hdvd => ?_⟩
    have hmem := hall (d - 2) (by omega)
    have hd : d - 2 + 2 = d := by omega
    rw [hd] at hmem
    exact hmem (Nat.mod_eq_zero_of_dvd hdvd)
  · rintro ⟨h2, hp⟩
    refine ⟨h2, fun i hi hmod => ?_⟩
    exact hp (i + 2) (by omega) (by omega) (Nat.dvd_of_mod_eq_zero hmod)

lemma mem_list_prime_factors {M p : Nat} (hM : 0 < M) :
    p ∈ list_prime_factors M ↔ Nat.Prime p ∧ p ∣ M := by
  unfold list_prime_factors
  simp only [List.mem_filter, List.mem_range, Bool.and_eq_true, beq_iff_eq, is_prime_iff]
  constructor
  · rintro ⟨_, hp, hmod⟩
    exact ⟨hp, Nat.dvd_of_mod_eq_zero hmod⟩
  · rintro ⟨hp, hdvd⟩
    have hle := Nat.le_of_dvd hM hdvd
    exact ⟨by omega, hp, Nat.mod_eq_zero_of_dvd hdvd⟩

lemma factor_guard_iff {M : Nat} (hM : 1 < M) (a : Nat) :
    (((list_prime_factors M).all fun f => a % f != 0) = true) ↔ Nat.Coprime a M := by
  simp only [List.all_eq_true, bne_iff_ne, ne_eq]
  constructor
  · intro hall
    by_contra hnc
    obtain ⟨p, hp, hpg⟩ := Nat.exists_prime_and_dvd (fun h1 => hnc h1)
    have hpa : p ∣ a := hpg.trans (Nat.gcd_dvd_left a M)
    have hpM : p ∣ M := hpg.trans (Nat.gcd_dvd_right a M)
    have hmem : p ∈ list_prime_factors M :=
      (mem_list_prime_factors (by omega)).mpr ⟨hp, hpM⟩
    exact hall p hmem (Nat.mod_eq_zero_of_dvd hpa)
  · intro hco f hf hmod
    obtain ⟨hfp, hfM⟩ := (mem_list_prime_factors (by omega : 0 < M)).mp hf
    have hfa : f ∣ a := Nat.dvd_of_mod_eq_zero hmod
    have hfg : f ∣ Nat.gcd a M := Nat.dvd_gcd hfa hfM
    have hg1 : Nat.gcd a M = 1 := hco
    rw [hg1] at hfg
    exact hfp.one_lt.ne' (Nat.dvd_one.mp hfg)

lemma egcdFuel_succ (fuel a b : Nat) (hb : b ≠ 0) :
    egcdFuel (fuel + 1) a b =
      ((egcdFuel fuel b (a % b)).2.1,
        (egcdFuel fuel b (a % b)).1 - ((a / b : Nat) : Int) * (egcdFuel fuel b (a % b)).2.1,
        (egcdFuel fuel b (a % b)).2.2) := by
  cases b with
  | zero => exact absurd rfl hb
  | succ b => rfl

lemma egcdFuel_spec : ∀ fuel a b, b < fuel →
    (egcdFuel fuel a b).2.2 = Nat.gcd b a ∧
      (a : Int) * (egcdFuel fuel a b).1 + (b : Int) * (egcdFuel fuel a b).2.1 =
        ((egcdFuel fuel a b).2.2 : Int) := by
  intro fuel
  induction fuel with
  | zero => intro a b h; exact absurd h (Nat.not_lt_zero b)
  | succ fuel ih =>
    intro a b hb
    cases b with
    | zero => simp [egcdFuel]
    | succ b =>
      have hblt : a % (b + 1) < fuel :=
        lt_of_lt_of_le (Nat.mod_lt a (Nat.succ_pos b)) (by omega)
      obtain ⟨ihg, ihb⟩ := ih (b + 1) (a % (b + 1)) hblt
      rw [egcdFuel_succ fuel a (b + 1) (Nat.succ_ne_zero b)]
      have hcast : ((a % (b + 1) : Nat) : Int) + ((b + 1 : Nat) : Int) * ((a / (b + 1) : Nat) : Int)
          = (a : Int) := by
        exact_mod_cast congrArg (Nat.cast : Nat → Int) (Nat.mod_add_div a (b + 1))
      constructor
      · exact ihg.trans (Nat.gcd_rec (b + 1) a).symm
      · push_cast
        push_cast at ihb ihg hcast
        linear_combination ihb - (egcdFuel fuel (b + 1) (a % (b + 1))).2.1 * hcast

lemma egcd_spec (a b : Nat) :
    (egcd a b).2.2 = Nat.gcd a b ∧
      (a : Int) * (egcd a b).1 + (b : Int) * (egcd a b).2.1 = ((egcd a b).2.2 : Int) := by
  obtain ⟨h1, h2⟩ := egcdFuel_spec (b + 1) a b (Nat.lt_succ_self b)
  exact ⟨h1.trans (Nat.gcd_comm b a), h2⟩

lemma extended_gcd_inv {M a : Nat} (hM : 1 < M) (hg : Nat.gcd a M = 1) :
    (extended_gcd a M).1 < M ∧ (a * (extended_gcd a M).1) % M = 1 := by
  obtain ⟨hgcd, hbez⟩ := egcd_spec a M
  have hMne : ((M : Int)) ≠ 0 := by exact_mod_cast (by omega : M ≠ 0)
  have hMI : (0 : Int) < (M : Int) := by exact_mod_cast (by omega : 0 < M)
  have hxm0 : 0 ≤ (egcd a M).1 % (M : Int) := Int.emod_nonneg _ hMne
  have hxm1 : (egcd a M).1 % (M : Int) < (M : Int) := Int.emod_lt_of_pos _ hMI
  have hfst : (extended_gcd a M).1 = ((egcd a M).1 % (M : Int)).toNat := rfl
  constructor
  · rw [hfst]; omega
  · have hbez1 : (a : Int) * (egcd a M).1 + (M : Int) * (egcd a M).2.1 = 1 := by
      rw [hbez, hgcd, hg]; norm_num
    have h1 : ((a : Int) * ((egcd a M).1 % (M : Int))) % (M : Int) =
        ((a : Int) * (egcd a M).1) % (M : Int) := by
      conv_lhs => rw [Int.mul_emod]
      conv_rhs => rw [Int.mul_emod]
      rw [Int.emod_emod_of_dvd _ dvd_rfl]
    have h2 : ((a : Int) * (egcd a M).1) % (M : Int) = 1 := by
      have hx : (a : Int) * (egcd a M).1 = 1 + (M : Int) * (-(egcd a M).2.1) := by
        linarith [hbez1]
      rw [hx, Int.add_mul_emod_self_left]
      exact Int.emod_eq_of_lt (by norm_num) (by exact_mod_cast hM)
    have hkey : ((a : Int) * ((egcd a M).1 % (M : Int))) % (M : Int) = 1 := h1.trans h2
    have hcast : (((a * (extended_gcd a M).1) % M : Nat) : Int) =
        ((a : Int) * ((egcd a M).1 % (M : Int))) % (M : Int) := by
      rw [hfst]
      push_cast [Int.toNat_of_nonneg hxm0]
      rfl
    omega

lemma coprime_inv_ok {M a : Nat} (hM : 1 < M)
    (hguard : ((list_prime_factors M).all fun f => a % f != 0) = true) :
    coprime_inv M a = Except.ok (some (extended_gcd a M).1) := by
  have hco : Nat.Coprime a M := (factor_guard_iff hM a).mp hguard
  have hgg : (extended_gcd a M).2.2 = 1 := by
    show (egcd a M).2.2 = 1
    rw [(egcd_spec a M).1]
    exact hco
  simp [coprime_inv, hguard, hgg]

lemma no_inverse_of_brute_none {M a : Nat} (hM : 1 < M)
    (hb : brute_force_inv M a = none) : ∀ c, mul M a c ≠ 1 := by
  intro c hc
  have hr : mul M a (c % M) = 1 := by
    unfold mul at hc ⊢
    rw [Nat.mul_mod, Nat.mod_mod_of_dvd c dvd_rfl, ← Nat.mul_mod]
    exact hc
  have hrM : c % M < M := Nat.mod_lt c (by omega)
  have hr0 : c % M ≠ 0 := by
    intro h0
    rw [h0] at hr
    simp [mul] at hr
  unfold brute_force_inv at hb
  rw [List.find?_eq_none] at hb
  have hmem : c % M ∈ List.range' 1 (M - 1) := by
    rw [List.mem_range'_1]
    omega
  have hne := hb (c % M) hmem
  simp only [beq_iff_eq] at hne
  exact hne hr

lemma exists_inverse_of_coprime {M a : Nat} (hM : 1 < M) (hco : Nat.Coprime a M) :
    ∃ c, mul M a c = 1 := by
  obtain ⟨m, hm⟩ := Nat.exists_mul_emod_eq_one_of_coprime hco hM
  exact ⟨m, hm⟩

lemma inv_eq_prime {M a : Nat} (hp : is_prime M = true) :
    inv M a = Except.ok (some (pow M a (M - 2))) := by
  unfold inv prime_inv
  rw [if_pos hp, if_pos hp]
  rfl

lemma inv_eq_coprime {M a : Nat} (hM : 1 < M) (hp : is_prime M = false)
    (hg : ((list_prime_factors M).all fun f => a % f != 0) = true) :
    inv M a = Except.ok (some (extended_gcd a M).1) := by
  unfold inv
  rw [if_neg (by simp [hp]), if_pos hg]
  exact coprime_inv_ok hM hg

lemma inv_eq_brute {M a : Nat} (hp : is_prime M = false)
    (hg : ((list_prime_factors M).all fun f => a % f != 0) = false) :
    inv M a = Except.ok (brute_force_inv M a) := by
  unfold inv
  rw [if_neg (by simp [hp]), if_neg (by simp [hg])]

/-! ## Claim theorems -/

/-- C1: the spec claims `pow(a, 0) = 1` and `pow(a, n) = mul(pow(a, n-1), a)`
for `n ≥ 1`, with recursive halving and an extra factor of `a` exactly when
`n` is odd.  The code violates this: its parity test is `n % 1 == 1`, which
is never true, so the extra factor is never multiplied in and `pow` returns
1 on every input.  At the failing input `M = 101`, `a = 2`, `n = 1` the code
yields `pow(2, 1) = 1`, while the claim requires
`mul(pow(2, 0), 2) = mul(1, 2) = 2`. -/
theorem C1_pow_defect :
    pow 101 2 1 = 1 ∧ pow 101 2 0 = 1 ∧ mul 101 (pow 101 2 0) 2 = 2 := by
  decide

/-- C2: the spec claims that for prime `M` and nonzero `a`,
`mul(a, inverse(a)) = 1` with the inverse computed as `a^(M-2) mod M` by
fast exponentiation.  Because of the `n % 1 == 1` defect in `pow`,
`prime_inv(a) = pow(a, M-2) = 1` for every `a`, so at `M = 101`, `a = 2`
the code yields `inverse(2) = 1` and `mul(2, inverse(2)) = 2 ≠ 1`. -/
theorem C2_prime_inv_defect :
    prime_inv 101 2 = Except.ok 1 ∧ inv 101 2 = Except.ok (some 1) ∧
      mul 101 2 1 = 2 :=
  ⟨rfl, rfl, rfl⟩

/-- C3 counterexample: the claim states
`construct(100) * construct(100) == construct(10000 mod 101) == construct(3)`,
but `10000 mod 101 = 1`, so the product is `construct(1)` and differs from
`construct(3)`. -/
theorem C3_counterexample :
    mul 101 (new 101 100) (new 101 100) ≠ new 101 3 := by
  decide

/-- C3 amended: with modulus 101 over u16/i16,
`construct(100) * construct(100) == construct(10000 mod 101) == construct(1)`. -/
theorem C3_amended :
    mul 101 (new 101 100) (new 101 100) = new 101 ((10000 : Int) % 101) ∧
      new 101 ((10000 : Int) % 101) = new 101 1 := by
  decide

/-- C4: the spec claims `div(a, b) = mul(a, inverse(b))` when `b` is
invertible and a fatal failure (panic) when `b` has no modular inverse.  The
code violates the second part: with prime modulus `M = 101` and `b = 0`,
`inv(0)` takes the prime strategy and returns `Some(pow(0, 99)) = Some(1)`,
so `div(1, 0)` silently returns `mul(1, 1) = 1` even though 0 has no
modular inverse (`mul(0, c) = 0 ≠ 1` for every `c`). -/
theorem C4_div_silent_on_noninvertible :
    div 101 1 0 = Except.ok 1 ∧ ∀ c, mul 101 0 c ≠ 1 := by
  refine ⟨rfl, fun c => ?_⟩
  simp [mul]

/-- C7: ring closure — for representatives `a, b` in `[0, M)` the results of
`add`, `sub` and `mul` are again representatives in `[0, M)`. -/
theorem C7_ring_closure (M a b : Nat) (ha : a < M) (_hb : b < M) :
    add M a b < M ∧ sub M a b < M ∧ mul M a b < M := by
  have hM : 0 < M := lt_of_le_of_lt (Nat.zero_le a) ha
  exact ⟨Nat.mod_lt _ hM, Nat.mod_lt _ hM, Nat.mod_lt _ hM⟩

theorem C7_ring_closure_witness :
    add 101 92 13 < 101 ∧ sub 101 92 13 < 101 ∧ mul 101 92 13 < 101 :=
  C7_ring_closure 101 92 13 (by decide) (by decide)

/-- C8: construction normalizes congruent inputs — `construct(x + k*M) =
construct(x)` for every integer `k`, the signed constructor computes the
representative as `(((x mod M) + M) mod M)` with truncating `mod`, and the
result lies in `[0, M)` regardless of the sign of `x`. -/
theorem C8_construct_normalizes (M : Nat) (x k : Int) (hM : 0 < M) :
    new M (x + k * (M : Int)) = new M x ∧ new M x < M ∧
      new M x = ((x.tmod (M : Int) + (M : Int)).tmod (M : Int)).toNat := by
  refine ⟨?_, ?_, rfl⟩
  · rw [new_eq_emod hM, new_eq_emod hM, Int.add_mul_emod_self]
  · rw [new_eq_emod hM]
    have hMI : (0 : Int) < (M : Int) := by exact_mod_cast hM
    have h1 : 0 ≤ x % (M : Int) := Int.emod_nonneg x (by omega)
    have h2 : x % (M : Int) < (M : Int) := Int.emod_lt_of_pos x hMI
    omega

theorem C8_construct_normalizes_witness :
    new 101 (2 + (-2) * (101 : Int)) = new 101 2 ∧ new 101 2 < 101 ∧
      new 101 2 = (((2 : Int).tmod (101 : Int) + (101 : Int)).tmod (101 : Int)).toNat :=
  C8_construct_normalizes 101 2 (-2) (by decide)

/-- C9: the compile-time gate `overflow_check`, instantiated at an unsigned
width of `w` bits (maximum `2^w - 1`) with its signed counterpart (maximum
`2^(w-1) - 1`), admits exactly the moduli `M` with: `M` fits in the unsigned
width, `2M` fits in the signed width, `M` fits in 64 bits, and `M*M` fits in
the unsigned width (the code tests `M*M < 2^w - 1`, which is equivalent to
`M*M ≤ 2^w - 1` because `2^w - 1 ≡ 3 (mod 4)` is never a square for
`w ≥ 2`); and under the gate, for representatives `a, b < M` the
intermediates `a + b` (add), `a + M` (sub) and `a * b` (mul) all fit in the
unsigned width, so no operator overflows before the modulo reduction. -/
theorem C9_overflow_gate (w M a b : Nat) (hw : 2 ≤ w) (ha : a < M) (hb : b < M) :
    (overflow_check (2 ^ w - 1) (2 ^ (w - 1) - 1) M = true ↔
      (M ≤ 2 ^ w - 1 ∧ M + M ≤ 2 ^ (w - 1) - 1 ∧ M ≤ 2 ^ 64 - 1 ∧
        M * M ≤ 2 ^ w - 1)) ∧
    (overflow_check (2 ^ w - 1) (2 ^ (w - 1) - 1) M = true →
      a + b ≤ 2 ^ w - 1 ∧ a + M ≤ 2 ^ w - 1 ∧ a * b ≤ 2 ^ w - 1) := by
  have hsq := sq_ne_two_pow_sub_one hw M
  have hmono : 2 ^ (w - 1) ≤ 2 ^ w := Nat.pow_le_pow_right (by norm_num) (by omega)
  have hab : a * b < M * M :=
    mul_lt_mul'' ha hb (Nat.zero_le a) (Nat.zero_le b)
  simp only [overflow_check, Bool.and_eq_true, decide_eq_true_eq]
  constructor
  · constructor
    · rintro ⟨⟨⟨h1, h2⟩, h3⟩, h4⟩
      exact ⟨h1, h2, h3, Nat.le_of_lt h4⟩
    · rintro ⟨h1, h2, h3, h4⟩
      exact ⟨⟨⟨h1, h2⟩, h3⟩, by omega⟩
  · rintro ⟨⟨⟨h1, h2⟩, h3⟩, h4⟩
    omega

theorem C9_overflow_gate_witness :
    (overflow_check (2 ^ 16 - 1) (2 ^ (16 - 1) - 1) 101 = true ↔
      (101 ≤ 2 ^ 16 - 1 ∧ 101 + 101 ≤ 2 ^ (16 - 1) - 1 ∧ 101 ≤ 2 ^ 64 - 1 ∧
        101 * 101 ≤ 2 ^ 16 - 1)) ∧
    (overflow_check (2 ^ 16 - 1) (2 ^ (16 - 1) - 1) 101 = true →
      100 + 100 ≤ 2 ^ 16 - 1 ∧ 100 + 101 ≤ 2 ^ 16 - 1 ∧ 100 * 100 ≤ 2 ^ 16 - 1) :=
  C9_overflow_gate 16 101 100 100 (by decide) (by decide) (by decide)

/-- C10: `pow` terminates on every exponent — the recursion bottoms out at
`n = 0` returning 1, every recursive call is on `n / 2`, which is strictly
smaller than `n` for `n ≥ 1`, and the recursion depth is bounded by
`log2 n + 1`. -/
theorem C10_pow_terminates (M a n : Nat) (hn : 1 ≤ n) :
    pow M a 0 = 1 ∧ n / 2 < n ∧ pow_depth n ≤ Nat.log2 n + 1 :=
  ⟨rfl, by omega, pow_depthGo_le_log2 n n⟩

theorem C10_pow_terminates_witness :
    pow 101 2 0 = 1 ∧ 5 / 2 < 5 ∧ pow_depth 5 ≤ Nat.log2 5 + 1 :=
  C10_pow_terminates 101 2 5 (by decide)

/-- C5 counterexample: the claim states that whenever no modular inverse of
`a` exists, `inv(a)` returns None.  It fails at the representative `a = 0`
with the prime modulus `M = 101`: no `c` satisfies `mul(0, c) = 1`, yet the
prime strategy returns `Some(pow(0, 99)) = Some(1)`. -/
theorem C5_counterexample :
    inv 101 0 = Except.ok (some 1) ∧ ∀ c, mul 101 0 c ≠ 1 := by
  refine ⟨rfl, fun c => ?_⟩
  simp [mul]

/-- C5 amended: for every representative `a` in `[0, M)`, `inv(a)` dispatches
to the prime, coprime, or brute-force strategy without ever triggering the
strategies' fatal assertions (it never returns the panic value); it returns
None only via the brute-force fallback (so only when `M` is not prime and
the coprimality guard failed) and only when no modular inverse of `a`
exists; and conversely, for every NONZERO `a`, whenever no inverse of `a`
exists modulo `M`, `inv(a)` returns None.  (The original claim's converse
also covered `a = 0`, where it fails for prime `M`, see the
counterexample.) -/
theorem C5_inv_dispatch (M a : Nat) (hM : 1 < M) (ha : a < M) :
    (inv M a).isOk = true ∧
    (inv M a = Except.ok none →
      is_prime M = false ∧
        (((list_prime_factors M).all fun f => a % f != 0) = false) ∧
        brute_force_inv M a = none ∧ (∀ c, mul M a c ≠ 1)) ∧
    (a ≠ 0 → (∀ c, mul M a c ≠ 1) → inv M a = Except.ok none) := by
  refine ⟨?_, ?_, ?_⟩
  · by_cases hp : is_prime M = true
    · rw [inv_eq_prime hp]; rfl
    · have hp' : is_prime M = false := by simpa using hp
      by_cases hg : ((list_prime_factors M).all fun f => a % f != 0) = true
      · rw [inv_eq_coprime hM hp' hg]; rfl
      · have hg' : ((list_prime_factors M).all fun f => a % f != 0) = false := by
          simpa using hg
        rw [inv_eq_brute hp' hg']; rfl
  · intro hnone
    by_cases hp : is_prime M = true
    · rw [inv_eq_prime hp] at hnone
      simp at hnone
    · have hp' : is_prime M = false := by simpa using hp
      by_cases hg : ((list_prime_factors M).all fun f => a % f != 0) = true
      · rw [inv_eq_coprime hM hp' hg] at hnone
        simp at hnone
      · have hg' : ((list_prime_factors M).all fun f => a % f != 0) = false := by
          simpa using hg
        rw [inv_eq_brute hp' hg'] at hnone
        have hbn : brute_force_inv M a = none := by simpa using hnone
        exact ⟨hp', hg', hbn, no_inverse_of_brute_none hM hbn⟩
  · intro ha0 hno
    by_cases hp : is_prime M = true
    · exfalso
      have hprime := (is_prime_iff M).mp hp
      have hco : Nat.Coprime a M :=
        (Nat.coprime_of_lt_prime (Nat.pos_of_ne_zero ha0) ha hprime).symm
      obtain ⟨c, hc⟩ := exists_inverse_of_coprime hM hco
      exact hno c hc
    · have hp' : is_prime M = false := by simpa using hp
      by_cases hg : ((list_prime_factors M).all fun f => a % f != 0) = true
      · exfalso
        have hco : Nat.Coprime a M := (factor_guard_iff hM a).mp hg
        obtain ⟨c, hc⟩ := exists_inverse_of_coprime hM hco
        exact hno c hc
      · have hg' : ((list_prime_factors M).all fun f => a % f != 0) = false := by
          simpa using hg
        have hbn : brute_force_inv M a = none := by
          unfold brute_force_inv
          rw [List.find?_eq_none]
          intro i _
          simp only [beq_iff_eq]
          exact hno i
        rw [inv_eq_brute hp' hg', hbn]

theorem C5_inv_dispatch_witness :
    inv 6 4 = Except.ok none ∧ (inv 6 4).isOk = true := by
  have h := C5_inv_dispatch 6 4 (by decide) (by decide)
  have hno : ∀ c, mul 6 4 c ≠ 1 := by
    intro c hc
    have h2 : 2 ∣ mul 6 4 c := by
      unfold mul
      exact (Nat.dvd_mod_iff (by decide)).mpr ⟨2 * c, by ring⟩
    rw [hc] at h2
    omega
  exact ⟨h.2.2 (by decide) hno, h.1⟩

/-- C6: for a composite modulus `M` and an operand `a` coprime to `M`,
`coprime_inv(a)` passes its assertion, computes the extended Euclidean
algorithm on `(a, M)`, finds gcd 1, and returns the Bézout coefficient for
`a` reduced into `[0, M)`; the returned representative is canonical (in
`[0, M)`) and is the modular inverse of `a`.  (When the computed gcd is not
1 the code returns None — under the coprimality hypothesis that branch
cannot be reached, since the computed gcd is proved equal to 1.) -/
theorem C6_coprime_inv_correct (M a : Nat) (hM : 1 < M)
    (_hcomp : is_prime M = false) (hco : Nat.Coprime a M) :
    coprime_inv M a = Except.ok (some (extended_gcd a M).1) ∧
      (extended_gcd a M).2.2 = 1 ∧ (extended_gcd a M).1 < M ∧
      (a * (extended_gcd a M).1) % M = 1 := by
  have hguard := (factor_guard_iff hM a).mpr hco
  have hg1 : Nat.gcd a M = 1 := hco
  obtain ⟨hlt, hinv⟩ := extended_gcd_inv hM hg1
  have hgg : (extended_gcd a M).2.2 = 1 := by
    show (egcd a M).2.2 = 1
    rw [(egcd_spec a M).1]
    exact hg1
  exact ⟨coprime_inv_ok hM hguard, hgg, hlt, hinv⟩

theorem C6_coprime_inv_correct_witness :
    coprime_inv 6 5 = Except.ok (some (extended_gcd 5 6).1) ∧
      (extended_gcd 5 6).2.2 = 1 ∧ (extended_gcd 5 6).1 < 6 ∧
      (5 * (extended_gcd 5 6).1) % 6 = 1 :=
  C6_coprime_inv_correct 6 5 (by decide) (by decide) (by decide)

end GenericModular
